import Mathlib

/-!
Verification of the bpi-rs core: WBI request signing (src/utils/wbi.rs) and
session/account state management (src/client.rs).

Rust `String` values are modelled as lists of Unicode code points
(`Str := List Nat`); `str::as_bytes` / `String::bytes` are modelled by an
explicit UTF-8 encoder `utf8Bytes`.  `BTreeMap<String, String>` is modelled
as a key-sorted association list built by ordered insertion (`insertSorted`),
`HashMap<String, String>` as an association list with replace-or-append
insertion (`assocSet`).  Fallible operations return `RustResult`.
-/

set_option maxRecDepth 100000

namespace Bpi

/-- Rust `String`, as its list of Unicode code points. -/
abbrev Str := List Nat

/-- Embed a Lean string literal as a `Str`. -/
def strOf (s : String) : Str := s.data.map Char.toNat

/-- UTF-8 encoding of one Unicode code point (Rust `char` → its UTF-8 bytes). -/
def utf8Char (c : Nat) : List Nat :=
  if c < 128 then [c]
  else if c < 2048 then [192 + c / 64, 128 + c % 64]
  else if c < 65536 then [224 + c / 4096, 128 + c / 64 % 64, 128 + c % 64]
  else [240 + c / 262144, 128 + c / 4096 % 64, 128 + c / 64 % 64, 128 + c % 64]

/-- Rust `str::as_bytes` / `String::bytes`: the UTF-8 byte sequence of a string. -/
def utf8Bytes (s : Str) : List Nat := s.flatMap utf8Char

/-- Lexicographic strict order on code-point lists.  For valid Unicode strings
this coincides with Rust's `Ord` on `String` (byte-wise lexicographic order on
the UTF-8 encodings), because UTF-8 preserves code-point order; the coincidence
is proved for ASCII strings in `strLt_eq_byteLt_of_ascii`. -/
def strLt : Str → Str → Bool
  | [], [] => false
  | [], _ :: _ => true
  | _ :: _, [] => false
  | a :: as, b :: bs => a < b || (a == b && strLt as bs)

/-- Lookup in an association list (first match wins); models both
`BTreeMap::get` (on sorted lists) and `HashMap::get` (keys are unique). -/
def assocGet (m : List (Str × Str)) (k : Str) : Option Str :=
  match m with
  | [] => none
  | (k', v') :: rest => if k' == k then some v' else assocGet rest k

/-- Replace-or-append insertion; models `HashMap::insert` on an association
list with unique keys. -/
def assocSet (m : List (Str × Str)) (k v : Str) : List (Str × Str) :=
  match m with
  | [] => [(k, v)]
  | (k', v') :: rest => if k' == k then (k, v) :: rest else (k', v') :: assocSet rest k v

/-- Ordered insertion keyed by `strLt`; models `BTreeMap::insert` on a
key-sorted association list (replaces the value on an existing key). -/
def insertSorted (k v : Str) : List (Str × Str) → List (Str × Str)
  | [] => [(k, v)]
  | (k', v') :: rest =>
    if strLt k k' then (k, v) :: (k', v') :: rest
    else if k == k' then (k, v) :: rest
    else (k', v') :: insertSorted k v rest

/-- Collecting an iterator of pairs into a `BTreeMap` (later pairs overwrite
earlier ones on equal keys, result sorted by key). -/
def toBTreeMap (pairs : List (Str × Str)) : List (Str × Str) :=
  pairs.foldl (fun m kv => insertSorted kv.1 kv.2 m) []

/-- Worker for `natDigits`; structural recursion on the fuel keeps the
definition kernel-reducible.  The fuel never runs out for `fuel ≥ n`. -/
def natDigitsGo : Nat → Nat → Str
  | 0, _ => []
  | fuel + 1, n =>
    if n < 10 then [48 + n] else natDigitsGo fuel (n / 10) ++ [48 + n % 10]

/-- Decimal digits of a natural number, as code points; models
`u64::to_string` / `format!` of an unsigned integer. -/
def natDigits (n : Nat) : Str := natDigitsGo (n + 1) n

/-- Rust `Result<A, E>`. -/
inductive RustResult (ε α : Type) where
  | ok (v : α)
  | err (e : ε)
deriving DecidableEq

/-- Error type `BpiError` restricted to the kinds the core raises. -/
inductive BpiError where
  | missingCsrf
  | parse (msg : Str)
  | transport (msg : Str)
deriving DecidableEq

/-! ## MD5 (the `md5::compute` dependency of `enc_wbi`)

A direct executable implementation of RFC 1321 over byte lists, with all
32-bit machine arithmetic written as `Nat` arithmetic reduced modulo 2^32. -/

/-- Truncation to a 32-bit word. -/
def w32 (n : Nat) : Nat := n % 4294967296

/-- Left rotation of a 32-bit word. -/
def rotl32 (x s : Nat) : Nat := w32 (x <<< s) ||| (x >>> (32 - s))

/-- Bitwise complement of a 32-bit word. -/
def not32 (x : Nat) : Nat := 4294967295 ^^^ x

/-- The 64 MD5 sine-derived round constants. -/
def md5K : List Nat :=
  [0xd76aa478, 0xe8c7b756, 0x242070db, 0xc1bdceee,
   0xf57c0faf, 0x4787c62a, 0xa8304613, 0xfd469501,
   0x698098d8, 0x8b44f7af, 0xffff5bb1, 0x895cd7be,
   0x6b901122, 0xfd987193, 0xa679438e, 0x49b40821,
   0xf61e2562, 0xc040b340, 0x265e5a51, 0xe9b6c7aa,
   0xd62f105d, 0x02441453, 0xd8a1e681, 0xe7d3fbc8,
   0x21e1cde6, 0xc33707d6, 0xf4d50d87, 0x455a14ed,
   0xa9e3e905, 0xfcefa3f8, 0x676f02d9, 0x8d2a4c8a,
   0xfffa3942, 0x8771f681, 0x6d9d6122, 0xfde5380c,
   0xa4beea44, 0x4bdecfa9, 0xf6bb4b60, 0xbebfbc70,
   0x289b7ec6, 0xeaa127fa, 0xd4ef3085, 0x04881d05,
   0xd9d4d039, 0xe6db99e5, 0x1fa27cf8, 0xc4ac5665,
   0xf4292244, 0x432aff97, 0xab9423a7, 0xfc93a039,
   0x655b59c3, 0x8f0ccc92, 0xffeff47d, 0x85845dd1,
   0x6fa87e4f, 0xfe2ce6e0, 0xa3014314, 0x4e0811a1,
   0xf7537e82, 0xbd3af235, 0x2ad7d2bb, 0xeb86d391]

/-- The 64 MD5 per-round rotation amounts. -/
def md5S : List Nat :=
  [7, 12, 17, 22, 7, 12, 17, 22, 7, 12, 17, 22, 7, 12, 17, 22,
   5, 9, 14, 20, 5, 9, 14, 20, 5, 9, 14, 20, 5, 9, 14, 20,
   4, 11, 16, 23, 4, 11, 16, 23, 4, 11, 16, 23, 4, 11, 16, 23,
   6, 10, 15, 21, 6, 10, 15, 21, 6, 10, 15, 21, 6, 10, 15, 21]

/-- One MD5 round applied to the state `(a, b, c, d)` at round index `i`,
with `M` the 16 message words of the current block. -/
def md5Step (M : List Nat) (st : Nat × Nat × Nat × Nat) (i : Nat) :
    Nat × Nat × Nat × Nat :=
  let (a, b, c, d) := st
  let fg :=
    if i < 16 then ((b &&& c) ||| (not32 b &&& d), i)
    else if i < 32 then ((d &&& b) ||| (not32 d &&& c), (5 * i + 1) % 16)
    else if i < 48 then (b ^^^ c ^^^ d, (3 * i + 5) % 16)
    else (c ^^^ (b ||| not32 d), (7 * i) % 16)
  let f := w32 (fg.1 + a + md5K.getD i 0 + M.getD fg.2 0)
  (d, w32 (b + rotl32 f (md5S.getD i 0)), b, c)

/-- Little-endian decomposition of a 32-bit word into 4 bytes. -/
def le4 (n : Nat) : List Nat :=
  [n % 256, n / 256 % 256, n / 65536 % 256, n / 16777216 % 256]

/-- Process one 64-byte MD5 block. -/
def md5Block (st : Nat × Nat × Nat × Nat) (block : List Nat) :
    Nat × Nat × Nat × Nat :=
  let M := (List.range 16).map fun j =>
    block.getD (4 * j) 0 + 256 * block.getD (4 * j + 1) 0 +
      65536 * block.getD (4 * j + 2) 0 + 16777216 * block.getD (4 * j + 3) 0
  let r := (List.range 64).foldl (md5Step M) st
  (w32 (st.1 + r.1), w32 (st.2.1 + r.2.1), w32 (st.2.2.1 + r.2.2.1),
   w32 (st.2.2.2 + r.2.2.2))

/-- MD5 padding: a `0x80` byte, zeros to 56 mod 64, then the bit length as a
64-bit little-endian integer. -/
def md5Pad (msg : List Nat) : List Nat :=
  let len := msg.length
  let zeros := (119 - len % 64) % 64
  msg ++ 128 :: List.replicate zeros 0 ++
    (List.range 8).map (fun i => 8 * len % 18446744073709551616 / 256 ^ i % 256)

/-- Worker for `chunks64`; structural recursion on the fuel keeps the
definition kernel-reducible.  The fuel never runs out for `fuel ≥ l.length`. -/
def chunks64Go : Nat → List Nat → List (List Nat)
  | 0, _ => []
  | fuel + 1, l => if l = [] then [] else l.take 64 :: chunks64Go fuel (l.drop 64)

/-- Split a byte list into 64-byte chunks. -/
def chunks64 (l : List Nat) : List (List Nat) := chunks64Go (l.length + 1) l

/-- The 16-byte MD5 digest of a byte sequence. -/
def md5Bytes (msg : List Nat) : List Nat :=
  let r := (chunks64 (md5Pad msg)).foldl md5Block
    (1732584193, 4023233417, 2562383102, 271733878)
  le4 r.1 ++ le4 r.2.1 ++ le4 r.2.2.1 ++ le4 r.2.2.2

/-- Lowercase hexadecimal digit. -/
def hexLower (d : Nat) : Nat := if d < 10 then 48 + d else 87 + d

/-- Rust `format!` with the lowercase-hex specifier applied to an MD5 digest:
each digest byte printed as two lowercase hex digits. -/
def md5Hex (msg : List Nat) : Str :=
  (md5Bytes msg).flatMap fun b => [hexLower (b / 16), hexLower (b % 16)]

/-! ## src/utils/wbi.rs -/

/-- The fixed 64-entry byte-index permutation table `MIXIN_KEY_TAB`. -/
def MIXIN_KEY_TAB : List Nat :=
  [46, 47, 18, 2, 53, 8, 23, 32, 15, 50, 10, 31, 58, 3, 45, 35, 27, 43, 5,
   49, 33, 9, 42, 19, 29, 28, 14, 39, 12, 38, 41, 13, 37, 48, 7, 16, 24, 55,
   40, 61, 26, 17, 0, 1, 60, 51, 30, 4, 22, 25, 54, 21, 56, 59, 6, 63, 57,
   62, 11, 36, 20, 34, 44, 52]

/-- Function `get_mixin_key`: walk `MIXIN_KEY_TAB`, push the byte of
`orig.as_bytes()` at each in-bounds index, then take the first 32. -/
def get_mixin_key (orig : Str) : Str :=
  let bytes := utf8Bytes orig
  let s := MIXIN_KEY_TAB.foldl
    (fun s i => if i < bytes.length then s ++ [bytes.getD i 0] else s) []
  s.take 32

/-- Function `url_encode`: per byte of the UTF-8 encoding, ASCII alphanumerics
and `-` `_` `.` `~` pass through, a space becomes `%20`, and every other byte
becomes `%` followed by two uppercase hex digits. -/
def url_encode (s : Str) : Str :=
  (utf8Bytes s).foldl
    (fun result byte =>
      if (65 ≤ byte && byte ≤ 90) || (97 ≤ byte && byte ≤ 122) ||
          (48 ≤ byte && byte ≤ 57) || byte == 45 || byte == 95 ||
          byte == 46 || byte == 126 then
        result ++ [byte]
      else if byte == 32 then result ++ [37, 50, 48]
      else
        result ++ [37, (if byte / 16 < 10 then 48 + byte / 16 else 55 + byte / 16),
          (if byte % 16 < 10 then 48 + byte % 16 else 55 + byte % 16)])
    []

/-- Filtering a value's characters as `enc_wbi` does: drop every character in
`"!'()*"` (code points 33, 39, 40, 41, 42). -/
def stripValue (v : Str) : Str :=
  v.filter fun c => !([33, 39, 40, 41, 42].contains c)

/-- Apply `stripValue` to every value of a parameter map (the in-place
`values_mut` loop of `enc_wbi`). -/
def stripVals (m : List (Str × Str)) : List (Str × Str) :=
  m.map fun kv => (kv.1, stripValue kv.2)

/-- The `key=value` pairs of a map joined with `&`, each key and value
URL-encoded (the `query` local of `enc_wbi`). -/
def canonicalQuery (m : List (Str × Str)) : Str :=
  match m with
  | [] => []
  | [kv] => url_encode kv.1 ++ 61 :: url_encode kv.2
  | kv :: rest => url_encode kv.1 ++ 61 :: url_encode kv.2 ++ 38 :: canonicalQuery rest

/-- Function `enc_wbi` with the `SystemTime::now` reading passed in as `wts`:
derive the mixin key from the two raw keys, insert `wts`, strip `!'()*` from
every value, build the sorted canonical query, and insert the `w_rid` MD5
digest of the query concatenated with the mixin key. -/
def enc_wbi (params : List (Str × Str)) (img_key sub_key : Str) (wts : Nat) :
    List (Str × Str) :=
  let mixin_key := get_mixin_key (img_key ++ sub_key)
  let p1 := insertSorted (strOf "wts") (natDigits wts) params
  let p2 := stripVals p1
  let query := canonicalQuery p2
  let w_rid := md5Hex (utf8Bytes (query ++ mixin_key))
  insertSorted (strOf "w_rid") w_rid p2

/-- Field pair `wbi_img` of the navigation response (`WbiImgData`). -/
structure WbiImgData where
  img_url : Str
  sub_url : Str
deriving DecidableEq

/-- Extraction `url.rsplit('/').next().unwrap().split('.').next().unwrap()`:
the segment after the last `/`, truncated before the first `.`. -/
def extractKey (url : Str) : Str :=
  (url.foldl (fun acc c => if c == 47 then [] else acc ++ [c]) []).takeWhile
    (fun c => c != 46)

/-- The miss branch of `get_wbi_sign2`: fetch, extract both keys from the
response URLs, insert them into the cache under the bucket keys that were
computed at entry (passed in as `img_key_key` / `sub_key_key`), and sign. -/
def get_wbi_sign2_miss (cache : List (Str × Str))
    (fetch : RustResult BpiError (Option WbiImgData)) (wts : Nat)
    (params : List (Str × Str)) (img_key_key sub_key_key : Str) :
    RustResult BpiError (List (Str × Str)) × List (Str × Str) :=
  match fetch with
  | RustResult.err e => (RustResult.err e, cache)
  | RustResult.ok none =>
    (RustResult.err (BpiError.parse (strOf "获取 wbi 签名失败")), cache)
  | RustResult.ok (some data) =>
    let img := extractKey data.img_url
    let sub := extractKey data.sub_url
    let cache' := assocSet (assocSet cache img_key_key img) sub_key_key sub
    (RustResult.ok (enc_wbi (toBTreeMap params) img sub wts), cache')

/-- Method `get_wbi_sign2`, with its effects made explicit.  `clock n` is the
`Local::now().format("%Y-%m-%d %H")` string returned by the (n+1)-th clock
reading of the call — the source reads the clock exactly once, at entry.
`cache` is the current contents of `WBI_KEY_MAP`; `fetch` is the outcome of
the one navigation-metadata request the call would make on a cache miss
(`err`: transport/parse failure of `send_bpi`; `ok none`: a response whose
`data` field is absent; `ok (some d)`: a well-formed response).  `wts` is the
`SystemTime::now` reading inside `enc_wbi`.  Returns the result paired with
the new contents of `WBI_KEY_MAP`. -/
def get_wbi_sign2 (clock : Nat → Str) (cache : List (Str × Str))
    (fetch : RustResult BpiError (Option WbiImgData)) (wts : Nat)
    (params : List (Str × Str)) :
    RustResult BpiError (List (Str × Str)) × List (Str × Str) :=
  let s := clock 0
  let img_key_key := s ++ strOf "img_key"
  let sub_key_key := s ++ strOf "sub_key"
  match assocGet cache img_key_key, assocGet cache sub_key_key with
  | some img, some sub =>
    (RustResult.ok (enc_wbi (toBTreeMap params) img sub wts), cache)
  | some _, none =>
    get_wbi_sign2_miss cache fetch wts params img_key_key sub_key_key
  | none, some _ =>
    get_wbi_sign2_miss cache fetch wts params img_key_key sub_key_key
  | none, none =>
    get_wbi_sign2_miss cache fetch wts params img_key_key sub_key_key

/-! ## src/client.rs -/

/-- Credential bundle `Account` (declared in the repository's auth module). -/
structure Account where
  dede_user_id : Str
  dede_user_id_ckmd5 : Str
  sessdata : Str
  bili_jct : Str
  buvid3 : Str
deriving DecidableEq

/-- Modelled from the spec: `Account::is_complete` is defined in the
repository's auth module, which is not among the provided source files; the
spec states the invariant "an Account is complete iff all five fields are
non-empty". -/
def Account.is_complete (a : Account) : Bool :=
  !a.dede_user_id.isEmpty && !a.dede_user_id_ckmd5.isEmpty &&
    !a.sessdata.isEmpty && !a.bili_jct.isEmpty && !a.buvid3.isEmpty

/-- One cookie held by the reqwest cookie jar, identified by
(name, domain, path). -/
structure CookieEntry where
  name : Str
  value : Str
  domain : Str
  path : Str
deriving DecidableEq

/-- The reqwest cookie jar shared between the transport and the client. -/
abbrev Jar := List CookieEntry

/-- Method `add_cookie_pair`, which calls reqwest
`Jar::add_cookie_str("{key}={value}; Domain=.bilibili.com; Path=/", url)`:
the jar stores the cookie under its (name, domain, path) identity, replacing
any existing cookie with the same identity.  Per RFC 6265 the leading dot of
the `Domain` attribute is dropped, so the stored domain is `bilibili.com`. -/
def add_cookie_pair (jar : Jar) (key value : Str) : Jar :=
  { name := key, value := value, domain := strOf "bilibili.com",
    path := strOf "/" } ::
    jar.filter fun e =>
      !(e.name == key && e.domain == strOf "bilibili.com" &&
        e.path == strOf "/")

/-- Method `load_cookies_from_account`: write the five canonical cookies. -/
def load_cookies_from_account (jar : Jar) (account : Account) : Jar :=
  [(strOf "DedeUserID", account.dede_user_id),
   (strOf "DedeUserID__ckMd5", account.dede_user_id_ckmd5),
   (strOf "SESSDATA", account.sessdata),
   (strOf "bili_jct", account.bili_jct),
   (strOf "buvid3", account.buvid3)].foldl
    (fun j kv => add_cookie_pair j kv.1 kv.2) jar

/-- The mutable state of a `BpiClient`: the cookie jar and the mutex-guarded
optional account. -/
structure ClientState where
  jar : Jar
  account : Option Account
deriving DecidableEq

/-- Method `set_account`: install the account and write its cookies when it is
complete, otherwise log and leave all state unchanged. -/
def set_account (st : ClientState) (account : Account) : ClientState :=
  if account.is_complete then
    { jar := load_cookies_from_account st.jar account, account := some account }
  else st

/-- Method `get_account`: a copy of the active account, if any. -/
def get_account (st : ClientState) : Option Account := st.account

/-- RFC 6265 domain matching of a stored cookie against a request host:
the host equals the cookie domain or ends with `.` followed by it. -/
def cookieMatchesHost (e : CookieEntry) (host : Str) : Bool :=
  host == e.domain || (46 :: e.domain).isSuffixOf host

/-- Method `has_login_cookies`: whether `jar.cookies(url)` is `Some` for
`https://api.bilibili.com`, i.e. some stored cookie matches that host. -/
def has_login_cookies (st : ClientState) : Bool :=
  st.jar.any fun e => cookieMatchesHost e (strOf "api.bilibili.com")

/-- Method `csrf`: the active account's `bili_jct`, filtered to be non-empty,
else `BpiError::missing_csrf`. -/
def csrf (st : ClientState) : RustResult BpiError Str :=
  match (st.account.filter fun acc => !acc.bili_jct.isEmpty).map
      Account.bili_jct with
  | some v => RustResult.ok v
  | none => RustResult.err BpiError.missingCsrf

/-- Rust `char::is_whitespace` restricted to the ASCII whitespace characters
(the inputs the cookie parser meets contain no other whitespace). -/
def isWs (c : Nat) : Bool :=
  c == 32 || c == 9 || c == 10 || c == 13 || c == 11 || c == 12

/-- Rust `str::trim`. -/
def trimStr (s : Str) : Str :=
  ((s.dropWhile isWs).reverse.dropWhile isWs).reverse

/-- Rust `str::split(sep)` on a single-character separator. -/
def splitSep (sep : Nat) (s : Str) : List Str :=
  match s with
  | [] => [[]]
  | c :: rest =>
    if c == sep then [] :: splitSep sep rest
    else
      match splitSep sep rest with
      | [] => [[c]]
      | seg :: segs => (c :: seg) :: segs

/-- One iteration of the parsing loop of `set_account_from_cookie_str`: trim
the segment, find the first `=`, and insert the trimmed key and the trimmed
remainder after the `=` into the map (overwriting an earlier assignment). -/
def parseCookiePair (m : List (Str × Str)) (kv0 : Str) : List (Str × Str) :=
  let kv := trimStr kv0
  match kv.findIdx? (fun c => c == 61) with
  | some pos => assocSet m (trimStr (kv.take pos)) (trimStr (kv.drop (pos + 1)))
  | none => m

/-- The parsing loop of `set_account_from_cookie_str`: split on `;` and fold
the pair parser over the segments (a later duplicate overwrites). -/
def parseCookieMap (raw : Str) : List (Str × Str) :=
  (splitSep 59 raw).foldl parseCookiePair []

/-- The `Account` struct literal of `set_account_from_cookie_str`: each field
is the map entry under its canonical cookie name, defaulting to the empty
string. -/
def accountOfCookieMap (m : List (Str × Str)) : Account :=
  { dede_user_id := (assocGet m (strOf "DedeUserID")).getD []
    dede_user_id_ckmd5 := (assocGet m (strOf "DedeUserID__ckMd5")).getD []
    sessdata := (assocGet m (strOf "SESSDATA")).getD []
    bili_jct := (assocGet m (strOf "bili_jct")).getD []
    buvid3 := (assocGet m (strOf "buvid3")).getD [] }

/-- Method `set_account_from_cookie_str`: parse the raw cookie string, build
the account, and delegate to `set_account`. -/
def set_account_from_cookie_str (st : ClientState) (raw : Str) : ClientState :=
  set_account st (accountOfCookieMap (parseCookieMap raw))

/-! ## Lemmas about the string order and the map operations -/

theorem strLt_trans : ∀ {a b c : Str},
    strLt a b = true → strLt b c = true → strLt a c = true
  | [], [], _, h, _ => by simp [strLt] at h
  | [], _ :: _, [], _, h => by simp [strLt] at h
  | [], _ :: _, _ :: _, _, _ => by simp [strLt]
  | _ :: _, [], _, h, _ => by simp [strLt] at h
  | _ :: _, _ :: _, [], _, h => by simp [strLt] at h
  | a :: as, b :: bs, c :: cs, h1, h2 => by
    simp only [strLt, Bool.or_eq_true, Bool.and_eq_true, decide_eq_true_eq,
      beq_iff_eq] at h1 h2 ⊢
    rcases h1 with h1 | ⟨rfl, h1⟩
    · rcases h2 with h2 | ⟨rfl, h2⟩
      · exact Or.inl (Nat.lt_trans h1 h2)
      · exact Or.inl h1
    · rcases h2 with h2 | ⟨rfl, h2⟩
      · exact Or.inl h2
      · exact Or.inr ⟨rfl, strLt_trans h1 h2⟩

theorem strLt_flip : ∀ {a b : Str}, strLt a b = false → a ≠ b → strLt b a = true
  | [], [], _, hne => absurd rfl hne
  | [], _ :: _, h, _ => by simp [strLt] at h
  | _ :: _, [], _, _ => by simp [strLt]
  | a :: as, b :: bs, h, hne => by
    simp only [strLt, Bool.or_eq_false_iff, Bool.and_eq_false_iff,
      decide_eq_false_iff_not, Bool.or_eq_true, Bool.and_eq_true,
      decide_eq_true_eq, beq_iff_eq, beq_eq_false_iff_ne, ne_eq] at h ⊢
    obtain ⟨hab, hrest⟩ := h
    rcases Nat.lt_or_ge b a with hba | hba
    · exact Or.inl hba
    · have hEq : a = b := by omega
      subst hEq
      rcases hrest with hne' | hfalse
      · exact absurd rfl hne'
      · refine Or.inr ⟨rfl, strLt_flip hfalse ?_⟩
        intro hEq2
        exact hne (by rw [hEq2])

theorem mem_insertSorted {k v : Str} :
    ∀ {m : List (Str × Str)} {x : Str × Str},
      x ∈ insertSorted k v m → x = (k, v) ∨ x ∈ m := by
  intro m
  induction m with
  | nil =>
    intro x h
    simpa [insertSorted] using h
  | cons kv rest ih =>
    intro x h
    obtain ⟨k', v'⟩ := kv
    simp only [insertSorted] at h
    split at h
    · rcases List.mem_cons.mp h with h | h
      · exact Or.inl h
      · exact Or.inr h
    · split at h
      · rcases List.mem_cons.mp h with h | h
        · exact Or.inl h
        · exact Or.inr (List.mem_cons_of_mem _ h)
      · rcases List.mem_cons.mp h with h | h
        · exact Or.inr (h ▸ List.mem_cons_self _ _)
        · rcases ih h with h | h
          · exact Or.inl h
          · exact Or.inr (List.mem_cons_of_mem _ h)

theorem assocGet_insertSorted_self (k v : Str) :
    ∀ (m : List (Str × Str)), assocGet (insertSorted k v m) k = some v
  | [] => by simp [insertSorted, assocGet]
  | (k', v') :: rest => by
    simp only [insertSorted]
    split
    · simp [assocGet]
    · split
      · simp [assocGet]
      · next hlt hne =>
        have : (k' == k) = false := by
          simp only [beq_iff_eq, beq_eq_false_iff_ne, ne_eq] at hne ⊢
          exact fun h => hne h.symm
        simp [assocGet, this, assocGet_insertSorted_self k v rest]

theorem assocGet_insertSorted_ne (k v k' : Str) (hne : k' ≠ k) :
    ∀ (m : List (Str × Str)),
      assocGet (insertSorted k v m) k' = assocGet m k'
  | [] => by
    have : (k == k') = false := by
      simp only [beq_eq_false_iff_ne, ne_eq]
      exact fun h => hne h.symm
    simp [insertSorted, assocGet, this]
  | (k2, v2) :: rest => by
    have hkk' : (k == k') = false := by
      simp only [beq_eq_false_iff_ne, ne_eq]
      exact fun h => hne h.symm
    simp only [insertSorted]
    split
    · simp [assocGet, hkk']
    · split
      · next hlt hEq =>
        have hEq' : k = k2 := by simpa [beq_iff_eq] using hEq
        subst hEq'
        simp [assocGet, hkk']
      · simp only [assocGet]
        split
        · rfl
        · exact assocGet_insertSorted_ne k v k' hne rest

theorem assocGet_assocSet_self (m : List (Str × Str)) (k v : Str) :
    assocGet (assocSet m k v) k = some v := by
  induction m with
  | nil => simp [assocSet, assocGet]
  | cons kv rest ih =>
    obtain ⟨k', v'⟩ := kv
    simp only [assocSet]
    split
    · simp [assocGet]
    · next h => simp [assocGet, h, ih]

theorem assocGet_assocSet_ne (m : List (Str × Str)) (k v k' : Str)
    (hne : k' ≠ k) : assocGet (assocSet m k v) k' = assocGet m k' := by
  have hkk' : (k == k') = false := by
    simp only [beq_eq_false_iff_ne, ne_eq]
    exact fun h => hne h.symm
  induction m with
  | nil => simp [assocSet, assocGet, hkk']
  | cons kv rest ih =>
    obtain ⟨k2, v2⟩ := kv
    simp only [assocSet]
    split
    · next h =>
      have : k2 = k := by simpa [beq_iff_eq] using h
      subst this
      simp [assocGet, hkk']
    · simp only [assocGet]
      split
      · rfl
      · exact ih

theorem assocGet_stripVals (m : List (Str × Str)) (k : Str) :
    assocGet (stripVals m) k = (assocGet m k).map stripValue := by
  induction m with
  | nil => simp [stripVals, assocGet]
  | cons kv rest ih =>
    simp only [stripVals, List.map_cons, assocGet]
    split
    · rfl
    · exact ih

theorem keys_stripVals (m : List (Str × Str)) :
    (stripVals m).map Prod.fst = m.map Prod.fst := by
  induction m with
  | nil => rfl
  | cons kv rest ih => simp [stripVals, ih]

/-- Keys of a parameter map are strictly increasing in `strLt`. -/
def keysSorted (m : List (Str × Str)) : Prop :=
  m.Pairwise fun a b => strLt a.1 b.1 = true

theorem keysSorted_insertSorted (k v : Str) :
    ∀ {m : List (Str × Str)}, keysSorted m → keysSorted (insertSorted k v m)
  | [], _ => by simp [insertSorted, keysSorted]
  | (k', v') :: rest, h => by
    obtain ⟨hhead, htail⟩ := List.pairwise_cons.mp h
    simp only [insertSorted]
    split
    · next hlt =>
      refine List.pairwise_cons.mpr ⟨?_, h⟩
      intro x hx
      rcases List.mem_cons.mp hx with rfl | hx
      · exact hlt
      · exact strLt_trans hlt (hhead x hx)
    · split
      · next hlt hEq =>
        have : k = k' := by simpa [beq_iff_eq] using hEq
        subst this
        exact List.pairwise_cons.mpr ⟨hhead, htail⟩
      · next hlt hne =>
        have hne' : k ≠ k' := by simpa [beq_iff_eq] using hne
        refine List.pairwise_cons.mpr ⟨?_, keysSorted_insertSorted k v htail⟩
        intro x hx
        rcases mem_insertSorted hx with rfl | hx
        · exact strLt_flip (Bool.eq_false_iff.mpr hlt) hne'
        · exact hhead x hx

theorem keysSorted_toBTreeMap (pairs : List (Str × Str)) :
    keysSorted (toBTreeMap pairs) := by
  have aux : ∀ (l : List (Str × Str)) (m : List (Str × Str)), keysSorted m →
      keysSorted (l.foldl (fun m kv => insertSorted kv.1 kv.2 m) m) := by
    intro l
    induction l with
    | nil => exact fun m h => h
    | cons kv rest ih =>
      intro m h
      exact ih _ (keysSorted_insertSorted kv.1 kv.2 h)
  exact aux pairs [] (by simp [keysSorted])

/-! ## Lemmas about the encoders and the digest -/

/-- Uppercase hexadecimal digit. -/
def hexUpper (d : Nat) : Nat := if d < 10 then 48 + d else 55 + d

/-- The per-byte encoding rule exactly as the spec phrases it: letters,
digits, and `-` `_` `.` `~` pass through unescaped; a space encodes to `%20`;
every other byte encodes as `%XX` with uppercase hex digits. -/
def specEncByte (b : Nat) : Str :=
  if (65 ≤ b ∧ b ≤ 90) ∨ (97 ≤ b ∧ b ≤ 122) ∨ (48 ≤ b ∧ b ≤ 57) ∨
      b = 45 ∨ b = 95 ∨ b = 46 ∨ b = 126 then [b]
  else if b = 32 then [37, 50, 48]
  else [37, hexUpper (b / 16), hexUpper (b % 16)]

theorem foldl_accum_eq_flatMap (f : Str → Nat → Str)
    (hf : ∀ r b, f r b = r ++ f [] b) :
    ∀ (l : List Nat) (init : Str), l.foldl f init = init ++ l.flatMap (f []) := by
  intro l
  induction l with
  | nil => simp
  | cons b rest ih =>
    intro init
    simp only [List.foldl_cons, List.flatMap_cons, ih, hf init b,
      List.append_assoc]

theorem utf8Char_mem_lt {c : Nat} (hc : c < 1114112) :
    ∀ b ∈ utf8Char c, b < 256 := by
  intro b hb
  unfold utf8Char at hb
  split at hb
  · next h => simp at hb; omega
  · split at hb
    · next h1 h2 => simp at hb; rcases hb with rfl | rfl <;> omega
    · split at hb
      · next h1 h2 h3 => simp at hb; rcases hb with rfl | rfl | rfl <;> omega
      · next h1 h2 h3 =>
        simp at hb
        rcases hb with rfl | rfl | rfl | rfl <;> omega

theorem utf8Bytes_mem_lt {s : Str} (hs : ∀ c ∈ s, c < 1114112) :
    ∀ b ∈ utf8Bytes s, b < 256 := by
  intro b hb
  simp only [utf8Bytes, List.mem_flatMap] at hb
  obtain ⟨c, hcs, hbc⟩ := hb
  exact utf8Char_mem_lt (hs c hcs) b hbc

theorem utf8Bytes_ascii : ∀ {s : Str}, (∀ c ∈ s, c < 128) → utf8Bytes s = s
  | [], _ => rfl
  | c :: rest, h => by
    have hc : c < 128 := h c (List.mem_cons_self _ _)
    have hr := utf8Bytes_ascii fun x hx => h x (List.mem_cons_of_mem _ hx)
    simp [utf8Bytes, utf8Char, hc] at hr ⊢
    exact hr

theorem url_encode_step (r : Str) (b : Nat) :
    (fun result byte =>
      if (65 ≤ byte && byte ≤ 90) || (97 ≤ byte && byte ≤ 122) ||
          (48 ≤ byte && byte ≤ 57) || byte == 45 || byte == 95 ||
          byte == 46 || byte == 126 then
        result ++ [byte]
      else if byte == 32 then result ++ [37, 50, 48]
      else
        result ++ [37, (if byte / 16 < 10 then 48 + byte / 16 else 55 + byte / 16),
          (if byte % 16 < 10 then 48 + byte % 16 else 55 + byte % 16)] : Str → Nat → Str)
      r b = r ++ specEncByte b := by
  by_cases hA : (65 ≤ b ∧ b ≤ 90) ∨ (97 ≤ b ∧ b ≤ 122) ∨ (48 ≤ b ∧ b ≤ 57) ∨
      b = 45 ∨ b = 95 ∨ b = 46 ∨ b = 126
  · have hb : ((65 ≤ b && b ≤ 90) || (97 ≤ b && b ≤ 122) || (48 ≤ b && b ≤ 57) ||
        b == 45 || b == 95 || b == 46 || b == 126) = true := by
      simp only [Bool.or_eq_true, Bool.and_eq_true, decide_eq_true_eq, beq_iff_eq]
      tauto
    simp [specEncByte, hA, hb]
  · have hb : ((65 ≤ b && b ≤ 90) || (97 ≤ b && b ≤ 122) || (48 ≤ b && b ≤ 57) ||
        b == 45 || b == 95 || b == 46 || b == 126) = false := by
      simp only [Bool.or_eq_false_iff, Bool.and_eq_false_iff,
        decide_eq_false_iff_not, beq_eq_false_iff_ne, ne_eq]
      push_neg at hA
      omega
    by_cases h32 : b = 32
    · simp [specEncByte, hA, hb, h32]
    · have h32b : (b == 32) = false := by
        simpa [beq_eq_false_iff_ne] using h32
      simp [specEncByte, hA, hb, h32, h32b, hexUpper]

theorem url_encode_eq_flatMap (s : Str) :
    url_encode s = (utf8Bytes s).flatMap specEncByte := by
  unfold url_encode
  rw [foldl_accum_eq_flatMap]
  · rw [List.nil_append]
    congr 1
    funext b
    exact (url_encode_step [] b).trans (List.nil_append _)
  · intro r b
    exact (url_encode_step r b).trans
      (congrArg (fun x => r ++ x)
        ((url_encode_step [] b).trans (List.nil_append _)).symm)

theorem flatMap_toList_eq_filterMap (g : Nat → Option Nat) :
    ∀ l : List Nat, (l.flatMap fun i => (g i).toList) = l.filterMap g := by
  intro l
  induction l with
  | nil => rfl
  | cons i rest ih =>
    cases h : g i <;> simp [List.filterMap_cons, h, ih]

theorem get_mixin_key_eq_filterMap (orig : Str) :
    get_mixin_key orig =
      (MIXIN_KEY_TAB.filterMap fun i => (utf8Bytes orig)[i]?).take 32 := by
  have hstep : ∀ (r : Str) (i : Nat),
      (fun s i => if i < (utf8Bytes orig).length then
        s ++ [(utf8Bytes orig).getD i 0] else s : Str → Nat → Str) r i =
        r ++ ((utf8Bytes orig)[i]?).toList := by
    intro r i
    by_cases h : i < (utf8Bytes orig).length
    · simp [h, List.getD_eq_getElem?_getD, List.getElem?_eq_getElem h]
    · simp [h, List.getElem?_eq_none (by omega : (utf8Bytes orig).length ≤ i)]
  simp only [get_mixin_key]
  congr 1
  rw [foldl_accum_eq_flatMap]
  · rw [List.nil_append, ← flatMap_toList_eq_filterMap]
    congr 1
    funext i
    exact (hstep [] i).trans (List.nil_append _)
  · intro r b
    exact (hstep r b).trans
      (congrArg (fun x => r ++ x) ((hstep [] b).trans (List.nil_append _)).symm)

theorem natDigitsGo_mem : ∀ {fuel n c : Nat},
    c ∈ natDigitsGo fuel n → 48 ≤ c ∧ c ≤ 57 := by
  intro fuel
  induction fuel with
  | zero =>
    intro n c h
    simp [natDigitsGo] at h
  | succ fuel ih =>
    intro n c h
    simp only [natDigitsGo] at h
    split at h
    · next hn =>
      simp at h
      omega
    · next hn =>
      rcases List.mem_append.mp h with h | h
      · exact ih h
      · simp at h
        omega

theorem natDigits_mem {n c : Nat} (h : c ∈ natDigits n) : 48 ≤ c ∧ c ≤ 57 :=
  natDigitsGo_mem h

theorem stripValue_natDigits (n : Nat) : stripValue (natDigits n) = natDigits n := by
  unfold stripValue
  rw [List.filter_eq_self]
  intro c hc
  have hd := natDigits_mem hc
  simp only [List.contains, List.elem_eq_mem, List.mem_cons, List.not_mem_nil,
    or_false, decide_eq_true_eq, Bool.not_eq_true']
  simp only [decide_eq_false_iff_not]
  omega

theorem md5Bytes_length (msg : List Nat) : (md5Bytes msg).length = 16 := by
  simp [md5Bytes, le4]

theorem md5Bytes_mem_lt (msg : List Nat) : ∀ b ∈ md5Bytes msg, b < 256 := by
  intro b hb
  simp only [md5Bytes, le4, List.mem_append, List.mem_cons,
    List.not_mem_nil, or_false] at hb
  omega

/-- Lowercase-hex character predicate. -/
def isLowerHex (c : Nat) : Bool := (48 ≤ c && c ≤ 57) || (97 ≤ c && c ≤ 102)

theorem md5Hex_length (msg : List Nat) : (md5Hex msg).length = 32 := by
  unfold md5Hex
  have aux : ∀ l : List Nat,
      (l.flatMap fun b => [hexLower (b / 16), hexLower (b % 16)]).length =
        2 * l.length := by
    intro l
    induction l with
    | nil => rfl
    | cons b rest ih => simp [ih]; omega
  rw [aux, md5Bytes_length]

theorem md5Hex_lowerHex (msg : List Nat) :
    (md5Hex msg).all isLowerHex = true := by
  unfold md5Hex
  rw [List.all_eq_true]
  intro c hc
  simp only [List.mem_flatMap, List.mem_cons, List.not_mem_nil, or_false] at hc
  obtain ⟨b, hb, hc⟩ := hc
  have hb256 := md5Bytes_mem_lt msg b hb
  have h16a : b / 16 < 16 := by omega
  have h16b : b % 16 < 16 := by omega
  rcases hc with rfl | rfl <;>
    simp only [isLowerHex, hexLower, Bool.or_eq_true, Bool.and_eq_true,
      decide_eq_true_eq] <;>
    split <;> omega

theorem mem_add_cookie_pair_of_ne {jar : Jar} {e : CookieEntry} (k v : Str)
    (he : e ∈ jar) (hname : e.name ≠ k) : e ∈ add_cookie_pair jar k v := by
  unfold add_cookie_pair
  apply List.mem_cons_of_mem
  rw [List.mem_filter]
  refine ⟨he, ?_⟩
  have hb : (e.name == k) = false := by
    simpa [beq_eq_false_iff_ne] using hname
  simp [hb]

theorem mem_add_cookie_pair_self (jar : Jar) (k v : Str) :
    ({ name := k, value := v,
       domain := strOf "bilibili.com",
       path := strOf "/" } : CookieEntry) ∈ add_cookie_pair jar k v :=
  List.mem_cons_self _ _

theorem mem_add_cookie_pair_entry (jar : Jar) (n1 v1 k v : Str)
    (hname : n1 ≠ k)
    (he : (⟨n1, v1, strOf "bilibili.com", strOf "/"⟩ : CookieEntry) ∈ jar) :
    (⟨n1, v1, strOf "bilibili.com", strOf "/"⟩ : CookieEntry) ∈
      add_cookie_pair jar k v :=
  mem_add_cookie_pair_of_ne k v he hname

theorem isEmpty_eq_false_of_ne_nil {l : Str} (h : l ≠ []) :
    l.isEmpty = false := by
  cases l with
  | nil => exact absurd rfl h
  | cons c rest => rfl

/-! ## Reference vectors (sanity anchors for the executable embedding) -/

theorem md5_vector_empty : md5Hex (utf8Bytes (strOf "")) =
    strOf "d41d8cd98f00b204e9800998ecf8427e" := by decide

theorem md5_vector_abc : md5Hex (utf8Bytes (strOf "abc")) =
    strOf "900150983cd24fb0d6963f7d28e17f72" := by decide

theorem mixin_reference_vector :
    get_mixin_key
      (strOf "7cd084941338484aae1ad9425b84077c4932caff0ff746eab6f01bf08b70ac45") =
      strOf "ea1db124af3c7062474693fa704f4ff8" := by decide

theorem wbi_reference_vector :
    assocGet
      (enc_wbi (toBTreeMap [(strOf "bvid", strOf "BV18x411c74j"),
          (strOf "cid", strOf "21448")])
        (strOf "7cd084941338484aae1ad9425b84077c")
        (strOf "4932caff0ff746eab6f01bf08b70ac45") 1700000000)
      (strOf "w_rid") =
      some (strOf "fedbee00cc5501ce4eaed2af2a3cc40a") := by decide

/-! ## Claim theorems -/

/-- C6: `csrf()` returns `Ok` with exactly the active account's `bili_jct`
value when an account with non-empty `bili_jct` is installed, and fails with
`MissingCsrf` if and only if no account is installed or the installed
account's `bili_jct` field is empty. -/
theorem C6_csrf (st : ClientState) :
    (∀ acc, get_account st = some acc → acc.bili_jct ≠ [] →
      csrf st = RustResult.ok acc.bili_jct) ∧
    (csrf st = RustResult.err BpiError.missingCsrf ↔
      st.account = none ∨ ∃ acc, st.account = some acc ∧ acc.bili_jct = []) := by
  constructor
  · intro acc hacc hne
    simp only [get_account] at hacc
    simp [csrf, hacc, Option.filter, isEmpty_eq_false_of_ne_nil hne]
  · cases hacc : st.account with
    | none => simp [csrf, hacc, Option.filter]
    | some acc =>
      cases hjct : acc.bili_jct with
      | nil => simp [csrf, hacc, Option.filter, hjct]
      | cons c rest => simp [csrf, hacc, Option.filter, hjct]

/-- C6 witness at a concrete state. -/
theorem C6_csrf_witness :
    csrf ⟨[], some ⟨strOf "1", strOf "2", strOf "3", strOf "tok", strOf "4"⟩⟩ =
      RustResult.ok (strOf "tok") :=
  (C6_csrf ⟨[], some ⟨strOf "1", strOf "2", strOf "3", strOf "tok",
      strOf "4"⟩⟩).1
    ⟨strOf "1", strOf "2", strOf "3", strOf "tok", strOf "4"⟩ rfl (by decide)

/-- C7: for every account with all five fields non-empty, `set_account`
followed by `get_account` returns the account just set, `has_login_cookies`
is true afterwards, and the five canonical cookies `DedeUserID`,
`DedeUserID__ckMd5`, `SESSDATA`, `bili_jct`, `buvid3` are in the cookie store
scoped to the service root domain (`Domain=.bilibili.com`, `Path=/`). -/
theorem C7_set_account_roundtrip (st : ClientState) (acc : Account)
    (h1 : acc.dede_user_id ≠ []) (h2 : acc.dede_user_id_ckmd5 ≠ [])
    (h3 : acc.sessdata ≠ []) (h4 : acc.bili_jct ≠ []) (h5 : acc.buvid3 ≠ []) :
    get_account (set_account st acc) = some acc ∧
    has_login_cookies (set_account st acc) = true ∧
    ({ name := strOf "DedeUserID", value := acc.dede_user_id,
       domain := strOf "bilibili.com",
       path := strOf "/" } : CookieEntry) ∈ (set_account st acc).jar ∧
    ({ name := strOf "DedeUserID__ckMd5", value := acc.dede_user_id_ckmd5,
       domain := strOf "bilibili.com",
       path := strOf "/" } : CookieEntry) ∈ (set_account st acc).jar ∧
    ({ name := strOf "SESSDATA", value := acc.sessdata,
       domain := strOf "bilibili.com",
       path := strOf "/" } : CookieEntry) ∈ (set_account st acc).jar ∧
    ({ name := strOf "bili_jct", value := acc.bili_jct,
       domain := strOf "bilibili.com",
       path := strOf "/" } : CookieEntry) ∈ (set_account st acc).jar ∧
    ({ name := strOf "buvid3", value := acc.buvid3,
       domain := strOf "bilibili.com",
       path := strOf "/" } : CookieEntry) ∈ (set_account st acc).jar := by
  have hc : acc.is_complete = true := by
    simp [Account.is_complete, isEmpty_eq_false_of_ne_nil h1,
      isEmpty_eq_false_of_ne_nil h2, isEmpty_eq_false_of_ne_nil h3,
      isEmpty_eq_false_of_ne_nil h4, isEmpty_eq_false_of_ne_nil h5]
  simp only [set_account, hc, if_true, get_account]
  simp only [load_cookies_from_account, List.foldl_cons, List.foldl_nil]
  refine ⟨trivial, ?_, ?_, ?_, ?_, ?_, ?_⟩
  · rw [has_login_cookies]
    simp only [add_cookie_pair, List.any_cons]
    have hm : cookieMatchesHost
        { name := strOf "buvid3", value := acc.buvid3,
          domain := strOf "bilibili.com", path := strOf "/" }
        (strOf "api.bilibili.com") = true := by
      show (strOf "api.bilibili.com" == strOf "bilibili.com" ||
        (46 :: strOf "bilibili.com").isSuffixOf
          (strOf "api.bilibili.com")) = true
      decide
    rw [hm]
    simp
  · exact mem_add_cookie_pair_entry _ _ _ _ _ (by decide)
      (mem_add_cookie_pair_entry _ _ _ _ _ (by decide)
        (mem_add_cookie_pair_entry _ _ _ _ _ (by decide)
          (mem_add_cookie_pair_entry _ _ _ _ _ (by decide)
            (mem_add_cookie_pair_self _ _ _))))
  · exact mem_add_cookie_pair_entry _ _ _ _ _ (by decide)
      (mem_add_cookie_pair_entry _ _ _ _ _ (by decide)
        (mem_add_cookie_pair_entry _ _ _ _ _ (by decide)
          (mem_add_cookie_pair_self _ _ _)))
  · exact mem_add_cookie_pair_entry _ _ _ _ _ (by decide)
      (mem_add_cookie_pair_entry _ _ _ _ _ (by decide)
        (mem_add_cookie_pair_self _ _ _))
  · exact mem_add_cookie_pair_entry _ _ _ _ _ (by decide)
      (mem_add_cookie_pair_self _ _ _)
  · exact mem_add_cookie_pair_self _ _ _

/-- C7 witness at a concrete account and the empty client state. -/
theorem C7_set_account_roundtrip_witness :
    get_account (set_account ⟨[], none⟩
        ⟨strOf "1", strOf "2", strOf "3", strOf "4", strOf "5"⟩) =
      some ⟨strOf "1", strOf "2", strOf "3", strOf "4", strOf "5"⟩ ∧
    has_login_cookies (set_account ⟨[], none⟩
        ⟨strOf "1", strOf "2", strOf "3", strOf "4", strOf "5"⟩) = true :=
  ⟨(C7_set_account_roundtrip _ _ (by decide) (by decide) (by decide)
      (by decide) (by decide)).1,
   (C7_set_account_roundtrip _ _ (by decide) (by decide) (by decide)
      (by decide) (by decide)).2.1⟩

/-- C8: for every account with at least one of the five fields empty,
`set_account` performs no mutation at all: the client state (account slot and
cookie jar alike) afterwards equals the state before, and the call is a
total no-op rather than an error. -/
theorem C8_incomplete_set_account_noop (st : ClientState) (acc : Account)
    (h : acc.dede_user_id = [] ∨ acc.dede_user_id_ckmd5 = [] ∨
      acc.sessdata = [] ∨ acc.bili_jct = [] ∨ acc.buvid3 = []) :
    set_account st acc = st := by
  have hc : acc.is_complete = false := by
    rcases h with h | h | h | h | h <;> simp [Account.is_complete, h]
  simp [set_account, hc]

/-- C8 witness at a concrete incomplete account. -/
theorem C8_incomplete_set_account_noop_witness :
    set_account ⟨[], none⟩ ⟨strOf "1", [], strOf "3", strOf "4", strOf "5"⟩ =
      ⟨[], none⟩ :=
  C8_incomplete_set_account_noop _ _ (Or.inr (Or.inl rfl))

/-- C9: `set_account_from_cookie_str` parses the `;`-separated `=`-delimited
input into a map in which the last occurrence of a duplicate name wins,
unrecognized names do not affect the resulting account, the five canonical
cookie names map onto the Account fields with missing names becoming empty
strings, and the result is delegated to `set_account`; in particular the
spec's cookie string omitting `DedeUserID__ckMd5` yields an account with that
field empty, which `set_account` rejects as incomplete (state unchanged). -/
theorem C9_set_account_from_cookie_str :
    (∀ st raw, set_account_from_cookie_str st raw =
      set_account st (accountOfCookieMap (parseCookieMap raw))) ∧
    (∀ m k v, assocGet (assocSet m k v) k = some v) ∧
    (∀ m k v k', k' ≠ k → assocGet (assocSet m k v) k' = assocGet m k') ∧
    (∀ m, assocGet m (strOf "DedeUserID__ckMd5") = none →
      (accountOfCookieMap m).dede_user_id_ckmd5 = []) ∧
    (∀ m k v, k ≠ strOf "DedeUserID" → k ≠ strOf "DedeUserID__ckMd5" →
      k ≠ strOf "SESSDATA" → k ≠ strOf "bili_jct" → k ≠ strOf "buvid3" →
      accountOfCookieMap (assocSet m k v) = accountOfCookieMap m) ∧
    (accountOfCookieMap
        (parseCookieMap (strOf "bili_jct=a;bili_jct=b;DedeUserID=1")) =
      { dede_user_id := strOf "1", dede_user_id_ckmd5 := [], sessdata := [],
        bili_jct := strOf "b", buvid3 := [] }) ∧
    (accountOfCookieMap
        (parseCookieMap (strOf "DedeUserID=1;bili_jct=abc;SESSDATA=x;buvid3=y")) =
      { dede_user_id := strOf "1", dede_user_id_ckmd5 := [],
        sessdata := strOf "x", bili_jct := strOf "abc", buvid3 := strOf "y" }) ∧
    (∀ st, set_account_from_cookie_str st
      (strOf "DedeUserID=1;bili_jct=abc;SESSDATA=x;buvid3=y") = st) := by
  refine ⟨fun st raw => rfl, fun m k v => assocGet_assocSet_self m k v,
    fun m k v k' h => assocGet_assocSet_ne m k v k' h, ?_, ?_,
    by decide, by decide, ?_⟩
  · intro m h
    simp [accountOfCookieMap, h]
  · intro m k v h1 h2 h3 h4 h5
    simp only [accountOfCookieMap,
      assocGet_assocSet_ne m k v _ (Ne.symm h1),
      assocGet_assocSet_ne m k v _ (Ne.symm h2),
      assocGet_assocSet_ne m k v _ (Ne.symm h3),
      assocGet_assocSet_ne m k v _ (Ne.symm h4),
      assocGet_assocSet_ne m k v _ (Ne.symm h5)]
  · intro st
    rw [set_account_from_cookie_str]
    have hacc : accountOfCookieMap
        (parseCookieMap (strOf "DedeUserID=1;bili_jct=abc;SESSDATA=x;buvid3=y")) =
        (⟨strOf "1", [], strOf "x", strOf "abc", strOf "y"⟩ : Account) := by
      decide
    rw [hacc, set_account]
    have hic : (⟨strOf "1", [], strOf "x", strOf "abc",
        strOf "y"⟩ : Account).is_complete = false := by decide
    simp [hic]

/-- C9 witness: an unrecognized cookie name leaves the parsed account
untouched. -/
theorem C9_set_account_from_cookie_str_witness :
    accountOfCookieMap (assocSet [] (strOf "foo") (strOf "bar")) =
      accountOfCookieMap [] :=
  C9_set_account_from_cookie_str.2.2.2.2.1 [] (strOf "foo") (strOf "bar")
    (by decide) (by decide) (by decide) (by decide) (by decide)

/-- C2 counterexample: the claim says the signed output equals the input
mapping augmented with `wts` and `w_rid`, but `enc_wbi` also strips the
characters `!'()*` from every caller-supplied value, so a value containing
`(` is not preserved. -/
theorem C2_counterexample :
    assocGet [(strOf "a", strOf "b(c")] (strOf "a") = some (strOf "b(c") ∧
    assocGet (enc_wbi [(strOf "a", strOf "b(c")] (strOf "i") (strOf "s") 7)
      (strOf "a") = some (strOf "bc") ∧
    strOf "bc" ≠ strOf "b(c" := by
  refine ⟨by decide, by decide, by decide⟩

/-- C2 (amended): for every parameter mapping, mixin key, and timestamp, the
signed output equals the input mapping with the characters `!'()*` stripped
from every value, augmented with a `wts` field holding the decimal timestamp
and a `w_rid` field that is the 32-character lowercase hex MD5 digest of the
UTF-8 bytes of the canonical query string concatenated directly (no
separator) with the mixin key; the signer is a pure function of
(params, keys, timestamp), hence deterministic. -/
theorem C2_enc_wbi_amended (m : List (Str × Str)) (img sub : Str) (wts : Nat) :
    (∀ k, k ≠ strOf "wts" → k ≠ strOf "w_rid" →
      assocGet (enc_wbi m img sub wts) k = (assocGet m k).map stripValue) ∧
    assocGet (enc_wbi m img sub wts) (strOf "wts") = some (natDigits wts) ∧
    assocGet (enc_wbi m img sub wts) (strOf "w_rid") =
      some (md5Hex (utf8Bytes
        (canonicalQuery (stripVals (insertSorted (strOf "wts") (natDigits wts) m)) ++
          get_mixin_key (img ++ sub)))) ∧
    (md5Hex (utf8Bytes
        (canonicalQuery (stripVals (insertSorted (strOf "wts") (natDigits wts) m)) ++
          get_mixin_key (img ++ sub)))).length = 32 ∧
    (md5Hex (utf8Bytes
        (canonicalQuery (stripVals (insertSorted (strOf "wts") (natDigits wts) m)) ++
          get_mixin_key (img ++ sub)))).all isLowerHex = true := by
  refine ⟨?_, ?_, ?_, md5Hex_length _, md5Hex_lowerHex _⟩
  · intro k hk1 hk2
    simp only [enc_wbi]
    rw [assocGet_insertSorted_ne _ _ _ hk2, assocGet_stripVals,
      assocGet_insertSorted_ne _ _ _ hk1]
  · simp only [enc_wbi]
    rw [assocGet_insertSorted_ne _ _ _ (by decide), assocGet_stripVals,
      assocGet_insertSorted_self]
    simp [stripValue_natDigits]
  · simp only [enc_wbi]
    rw [assocGet_insertSorted_self]

/-- C2 witness: the amended theorem applied at a concrete input. -/
theorem C2_enc_wbi_amended_witness :
    assocGet (enc_wbi [(strOf "a", strOf "b(c")] (strOf "i") (strOf "s") 9)
      (strOf "a") = some (strOf "bc") :=
  ((C2_enc_wbi_amended [(strOf "a", strOf "b(c")] (strOf "i") (strOf "s") 9).1
    (strOf "a") (by decide) (by decide)).trans (by decide)

/-- C3: the mixin key equals the bytes of the concatenation
`image_key ++ subtitle_key` selected at each index of the fixed 64-entry
permutation table in table order, out-of-range indices skipped (never
zero-filled), truncated to the first 32 selected bytes; `get_mixin_key` is a
pure function (deterministic), and when skipping leaves fewer than 32 bytes
the shorter mixin key is still used by `enc_wbi`, which always produces a
`w_rid` field rather than an error. -/
theorem C3_get_mixin_key :
    (∀ img sub : Str, get_mixin_key (img ++ sub) =
      (MIXIN_KEY_TAB.filterMap fun i => (utf8Bytes (img ++ sub))[i]?).take 32) ∧
    (∀ (img sub : Str) (m : List (Str × Str)) (wts : Nat),
      assocGet (enc_wbi m img sub wts) (strOf "w_rid") =
        some (md5Hex (utf8Bytes
          (canonicalQuery (stripVals (insertSorted (strOf "wts") (natDigits wts) m)) ++
            get_mixin_key (img ++ sub))))) ∧
    (get_mixin_key (strOf "ab" ++ strOf "")).length = 2 := by
  refine ⟨fun img sub => get_mixin_key_eq_filterMap _, ?_, by decide⟩
  intro img sub m wts
  simp only [enc_wbi]
  rw [assocGet_insertSorted_self]

/-- C4: canonicalization strips exactly the characters `!'()*` from every
parameter value and nothing from keys, sorts the entries by key before
hashing, and percent-encodes each key and value so that ASCII letters, digits
and `-` `_` `.` `~` pass through, a space becomes `%20`, and every other byte
becomes `%XX` with uppercase hex digits; on ASCII strings the sort order used
by the map coincides with byte-wise lexicographic order of the UTF-8
encodings. -/
theorem C4_param_canonicalization :
    (∀ s : Str, url_encode s = (utf8Bytes s).flatMap specEncByte) ∧
    (∀ v : Str, stripValue v =
      v.filter fun c => !(c == 33 || c == 39 || c == 40 || c == 41 || c == 42)) ∧
    (∀ m k, assocGet (stripVals m) k = (assocGet m k).map stripValue) ∧
    (∀ m, (stripVals m).map Prod.fst = m.map Prod.fst) ∧
    (∀ (pairs : List (Str × Str)) (wts : Nat),
      keysSorted (stripVals (insertSorted (strOf "wts") (natDigits wts)
        (toBTreeMap pairs)))) ∧
    (∀ a b : Str, (∀ c ∈ a, c < 128) → (∀ c ∈ b, c < 128) →
      strLt a b = strLt (utf8Bytes a) (utf8Bytes b)) := by
  refine ⟨url_encode_eq_flatMap, ?_, assocGet_stripVals, keys_stripVals,
    ?_, ?_⟩
  · intro v
    unfold stripValue
    apply List.filter_congr
    intro c _
    congr 1
    rw [Bool.eq_iff_iff]
    simp only [List.contains_cons, List.contains_nil, Bool.or_eq_true,
      beq_iff_eq, decide_eq_true_eq, Bool.false_eq_true, or_false]
    tauto
  · intro pairs wts
    have hsorted := keysSorted_insertSorted (strOf "wts") (natDigits wts)
      (keysSorted_toBTreeMap pairs)
    simp only [keysSorted, stripVals] at hsorted ⊢
    exact (List.pairwise_map).mpr hsorted
  · intro a b ha hb
    rw [utf8Bytes_ascii ha, utf8Bytes_ascii hb]

/-- C4 witness: the encoding characterization and the ASCII order coincidence
applied at concrete inputs. -/
theorem C4_param_canonicalization_witness :
    url_encode (strOf "a b") = strOf "a%20b" ∧
    strLt (strOf "cid") (strOf "wts") =
      strLt (utf8Bytes (strOf "cid")) (utf8Bytes (strOf "wts")) :=
  ⟨(C4_param_canonicalization.1 (strOf "a b")).trans (by decide),
   C4_param_canonicalization.2.2.2.2.2 (strOf "cid") (strOf "wts")
     (by decide) (by decide)⟩

/-- C10: if the caller's mapping already contains `wts` or `w_rid`, the
signer silently overwrites them — the output `wts` is the signer's own
timestamp (the caller's `wts` never reaches the hashed map), the output
`w_rid` is the computed digest, and the hashed map (over which the canonical
query string is built) still contains the caller's original `w_rid` value,
stripped, before it is replaced. -/
theorem C10_wts_wrid_overwritten (m : List (Str × Str)) (img sub : Str)
    (wts : Nat) (u v : Str)
    (hu : assocGet m (strOf "wts") = some u)
    (hv : assocGet m (strOf "w_rid") = some v) :
    assocGet (enc_wbi m img sub wts) (strOf "wts") = some (natDigits wts) ∧
    assocGet (enc_wbi m img sub wts) (strOf "w_rid") =
      some (md5Hex (utf8Bytes
        (canonicalQuery (stripVals (insertSorted (strOf "wts") (natDigits wts) m)) ++
          get_mixin_key (img ++ sub)))) ∧
    assocGet (stripVals (insertSorted (strOf "wts") (natDigits wts) m))
      (strOf "w_rid") = some (stripValue v) ∧
    assocGet (stripVals (insertSorted (strOf "wts") (natDigits wts) m))
      (strOf "wts") = some (natDigits wts) := by
  refine ⟨?_, ?_, ?_, ?_⟩
  · simp only [enc_wbi]
    rw [assocGet_insertSorted_ne _ _ _ (by decide), assocGet_stripVals,
      assocGet_insertSorted_self]
    simp [stripValue_natDigits]
  · simp only [enc_wbi]
    rw [assocGet_insertSorted_self]
  · rw [assocGet_stripVals, assocGet_insertSorted_ne _ _ _ (by decide), hv]
    rfl
  · rw [assocGet_stripVals, assocGet_insertSorted_self]
    simp [stripValue_natDigits]

/-- C10 witness at a concrete mapping that already carries `wts` and
`w_rid`. -/
theorem C10_wts_wrid_overwritten_witness :
    assocGet (enc_wbi [(strOf "w_rid", strOf "x"), (strOf "wts", strOf "9")]
      (strOf "i") (strOf "s") 5) (strOf "wts") = some (natDigits 5) :=
  (C10_wts_wrid_overwritten [(strOf "w_rid", strOf "x"), (strOf "wts", strOf "9")]
    (strOf "i") (strOf "s") 5 (strOf "9") (strOf "x")
    (by decide) (by decide)).1

/-- C1 counterexample: with a clock whose first reading (at entry) is the
bucket `2025-01-01 10` and whose later readings are `2025-01-01 11`, a
cache-miss call that fetches successfully inserts both keys under the
entry-time bucket `2025-01-01 10` and inserts nothing under the re-derived
bucket `2025-01-01 11`; the bucket key is reused from before the fetch, not
re-derived afterwards. -/
theorem C1_counterexample :
    (get_wbi_sign2
        (fun n => if n == 0 then strOf "2025-01-01 10" else strOf "2025-01-01 11")
        [] (RustResult.ok (some ⟨strOf "https://x/abc.png", strOf "https://x/def.png"⟩))
        0 []).2 =
      [(strOf "2025-01-01 10img_key", strOf "abc"),
       (strOf "2025-01-01 10sub_key", strOf "def")] ∧
    assocGet
      (get_wbi_sign2
        (fun n => if n == 0 then strOf "2025-01-01 10" else strOf "2025-01-01 11")
        [] (RustResult.ok (some ⟨strOf "https://x/abc.png", strOf "https://x/def.png"⟩))
        0 []).2
      (strOf "2025-01-01 11img_key") = none := by
  refine ⟨by decide, by decide⟩

/-- C1 (amended): on a cache miss with a successful fetch, `get_wbi_sign2`
inserts the two fetched key strings under the hour-bucket key computed from
the single clock reading taken at entry, before the fetch; the bucket key is
not re-derived after the fetch, so a fetch that spans a bucket boundary
inserts under the already-expired entry-time bucket. -/
theorem C1_insert_under_entry_bucket (clock : Nat → Str)
    (cache : List (Str × Str)) (data : WbiImgData) (wts : Nat)
    (params : List (Str × Str))
    (hmiss : assocGet cache (clock 0 ++ strOf "img_key") = none ∨
      assocGet cache (clock 0 ++ strOf "sub_key") = none) :
    (get_wbi_sign2 clock cache (RustResult.ok (some data)) wts params).2 =
      assocSet (assocSet cache (clock 0 ++ strOf "img_key")
          (extractKey data.img_url))
        (clock 0 ++ strOf "sub_key") (extractKey data.sub_url) := by
  unfold get_wbi_sign2
  rcases h1 : assocGet cache (clock 0 ++ strOf "img_key") with _ | img <;>
    rcases h2 : assocGet cache (clock 0 ++ strOf "sub_key") with _ | sub <;>
    simp_all [get_wbi_sign2_miss]

/-- C1 witness: the amended theorem applied at a concrete miss. -/
theorem C1_insert_under_entry_bucket_witness :
    (get_wbi_sign2 (fun _ => strOf "B") []
        (RustResult.ok (some ⟨strOf "u/i.png", strOf "u/s.png"⟩)) 0 []).2 =
      assocSet (assocSet [] (strOf "B" ++ strOf "img_key")
          (extractKey (strOf "u/i.png")))
        (strOf "B" ++ strOf "sub_key") (extractKey (strOf "u/s.png")) :=
  C1_insert_under_entry_bucket (fun _ => strOf "B") []
    ⟨strOf "u/i.png", strOf "u/s.png"⟩ 0 [] (Or.inl (by decide))

/-- C5: if both hour-bucket entries are present in the cache,
`get_wbi_sign2` performs no network fetch (its result does not depend on the
fetch outcome) and leaves the cache unchanged, returning the signature built
from the cached keys; and on a miss, a transport/parse failure of the fetch
or a response missing its `data` field returns the error and writes nothing
to the cache. -/
theorem C5_hit_no_io_miss_failure_no_write (clock : Nat → Str)
    (cache : List (Str × Str)) (wts : Nat) (params : List (Str × Str)) :
    (∀ img sub fetch fetch',
      assocGet cache (clock 0 ++ strOf "img_key") = some img →
      assocGet cache (clock 0 ++ strOf "sub_key") = some sub →
      get_wbi_sign2 clock cache fetch wts params =
        (RustResult.ok (enc_wbi (toBTreeMap params) img sub wts), cache) ∧
      get_wbi_sign2 clock cache fetch wts params =
        get_wbi_sign2 clock cache fetch' wts params) ∧
    (∀ e, (assocGet cache (clock 0 ++ strOf "img_key") = none ∨
        assocGet cache (clock 0 ++ strOf "sub_key") = none) →
      get_wbi_sign2 clock cache (RustResult.err e) wts params =
        (RustResult.err e, cache)) ∧
    ((assocGet cache (clock 0 ++ strOf "img_key") = none ∨
        assocGet cache (clock 0 ++ strOf "sub_key") = none) →
      get_wbi_sign2 clock cache (RustResult.ok none) wts params =
        (RustResult.err (BpiError.parse (strOf "获取 wbi 签名失败")), cache)) := by
  refine ⟨?_, ?_, ?_⟩
  · intro img sub fetch fetch' h1 h2
    constructor <;> · unfold get_wbi_sign2; simp [h1, h2]
  · intro e hmiss
    unfold get_wbi_sign2
    rcases h1 : assocGet cache (clock 0 ++ strOf "img_key") with _ | img <;>
      rcases h2 : assocGet cache (clock 0 ++ strOf "sub_key") with _ | sub <;>
      simp_all [get_wbi_sign2_miss]
  · intro hmiss
    unfold get_wbi_sign2
    rcases h1 : assocGet cache (clock 0 ++ strOf "img_key") with _ | img <;>
      rcases h2 : assocGet cache (clock 0 ++ strOf "sub_key") with _ | sub <;>
      simp_all [get_wbi_sign2_miss]

/-- C5 witness: a concrete full hit ignores a failing fetch outcome and
leaves the cache as it was. -/
theorem C5_hit_no_io_miss_failure_no_write_witness :
    get_wbi_sign2 (fun _ => strOf "B")
      [(strOf "Bimg_key", strOf "i"), (strOf "Bsub_key", strOf "s")]
      (RustResult.err (BpiError.transport (strOf "down"))) 0 [] =
      (RustResult.ok (enc_wbi (toBTreeMap []) (strOf "i") (strOf "s") 0),
        [(strOf "Bimg_key", strOf "i"), (strOf "Bsub_key", strOf "s")]) :=
  ((C5_hit_no_io_miss_failure_no_write (fun _ => strOf "B")
      [(strOf "Bimg_key", strOf "i"), (strOf "Bsub_key", strOf "s")] 0 []).1
    (strOf "i") (strOf "s") (RustResult.err (BpiError.transport (strOf "down")))
    (RustResult.ok none) (by decide) (by decide)).1

end Bpi
